import Mathlib

/-!
Verification of the credential-vault core of this repository.

The embedding below models, at the byte level (bytes are `Nat < 256`,
machine words are `Nat` reduced `% 2^32` or `% 2^64`):

* `hasher` from `test_folder/enc_test.py` — a single SHA-512 hex digest of
  the UTF-8 encoded passphrase;
* `write` from `test_folder/databases/write_db.py` together with the
  `Master` row type of `test_folder/databases/models.py`;
* the `Password` row type of `test_folder/databases/models.py`;
* the key derivation of `test_folder/gurt2.py` — PBKDF2-HMAC-SHA256 with
  1,200,000 iterations and a 32-byte output;
* the Fernet encrypt/decrypt calls of `test_folder/gurt2.py` — version
  byte 0x80, 8-byte timestamp, 16-byte IV, AES-128-CBC ciphertext with
  PKCS#7 padding, and a trailing HMAC-SHA256 tag over everything before
  it.  The AES-128 block permutation itself is taken as a parameter
  (`blockEnc`/`blockDec`) together with the hypothesis that decryption
  inverts encryption on 16-byte blocks; everything else (padding, CBC
  chaining, framing, HMAC tag) is computed concretely.
-/

set_option maxRecDepth 20000

/-! ## Bytes, words and hex encoding -/

/-- Fuelled worker for `chunks`; the fuel argument only makes the
recursion structural and is always at least the length of the list. -/
def chunksGo (n : Nat) : Nat → List Nat → List (List Nat)
  | _, [] => []
  | 0, _ :: _ => []
  | fuel + 1, b :: bs => (b :: bs).take n :: chunksGo n fuel ((b :: bs).drop n)

/-- Split a byte list into consecutive chunks of `n` bytes (the last chunk
may be shorter).  Used for 4/8-byte words and 16/64/128-byte blocks. -/
def chunks (n : Nat) (bs : List Nat) : List (List Nat) :=
  chunksGo n bs.length bs

/-- Big-endian base-256 rendering of `n` on exactly `k` bytes. -/
def intBE : Nat → Nat → List Nat
  | 0, _ => []
  | k + 1, n => intBE k (n >>> 8) ++ [n % 256]

theorem intBE_length (k n : Nat) : (intBE k n).length = k := by
  induction k generalizing n with
  | zero => rfl
  | succ k ih => simp [intBE, ih]

/-- Big-endian word value of a byte list. -/
def bytesToWord (bs : List Nat) : Nat :=
  bs.foldl (fun acc b => acc * 256 + b) 0

/-- The sixteen lowercase hexadecimal digits, as produced by Python's
`hexdigest()`. -/
def hexChars : List Char :=
  "0123456789abcdef".data

/-- Hex digit for a nibble. -/
def hexDigit (n : Nat) : Char :=
  hexChars.get ⟨n % 16, Nat.mod_lt n (by decide)⟩

/-- Two lowercase hex characters for one byte, high nibble first. -/
def byteToHex (b : Nat) : List Char :=
  [hexDigit (b / 16), hexDigit b]

/-- Lowercase hex rendering of a byte list (Python `bytes.hex()` /
`hashlib .hexdigest()`). -/
def hexEncode (bs : List Nat) : List Char :=
  bs.flatMap byteToHex

/-- UTF-8 encoding of one code point, as Python's `str.encode()` produces. -/
def utf8EncodeChar (c : Char) : List Nat :=
  let n := c.toNat
  if n < 128 then [n]
  else if n < 2048 then [192 ||| (n >>> 6), 128 ||| (n &&& 63)]
  else if n < 65536 then
    [224 ||| (n >>> 12), 128 ||| ((n >>> 6) &&& 63), 128 ||| (n &&& 63)]
  else
    [240 ||| (n >>> 18), 128 ||| ((n >>> 12) &&& 63),
     128 ||| ((n >>> 6) &&& 63), 128 ||| (n &&& 63)]

/-- UTF-8 encoding of a string (`str.encode()` in the Python source). -/
def utf8Encode (s : String) : List Nat :=
  s.data.flatMap utf8EncodeChar

/-! ## SHA-256 (used by `PBKDF2HMAC(algorithm=SHA256)` and Fernet's HMAC) -/

/-- Running hash state: eight working variables `a`–`h` of FIPS 180-4. -/
structure Hash8 where
  a : Nat
  b : Nat
  c : Nat
  d : Nat
  e : Nat
  f : Nat
  g : Nat
  h : Nat

/-- Right rotation of a 32-bit word. -/
def rotr32 (x n : Nat) : Nat :=
  ((x >>> n) ||| (x <<< (32 - n))) % 4294967296

/-- `Ch(x, y, z)` on 32-bit words. -/
def ch32 (x y z : Nat) : Nat :=
  (x &&& y) ^^^ ((x ^^^ 4294967295) &&& z)

/-- `Maj(x, y, z)`. -/
def maj (x y z : Nat) : Nat :=
  (x &&& y) ^^^ (x &&& z) ^^^ (y &&& z)

def bsig0_32 (x : Nat) : Nat := rotr32 x 2 ^^^ rotr32 x 13 ^^^ rotr32 x 22
def bsig1_32 (x : Nat) : Nat := rotr32 x 6 ^^^ rotr32 x 11 ^^^ rotr32 x 25
def ssig0_32 (x : Nat) : Nat := rotr32 x 7 ^^^ rotr32 x 18 ^^^ (x >>> 3)
def ssig1_32 (x : Nat) : Nat := rotr32 x 17 ^^^ rotr32 x 19 ^^^ (x >>> 10)

/-- SHA-256 round constants (FIPS 180-4 §4.2.2), written in decimal. -/
def K256 : List Nat :=
  [1116352408, 1899447441, 3049323471, 3921009573, 961987163,
   1508970993, 2453635748, 2870763221, 3624381080, 310598401,
   607225278, 1426881987, 1925078388, 2162078206, 2614888103,
   3248222580, 3835390401, 4022224774, 264347078, 604807628,
   770255983, 1249150122, 1555081692, 1996064986, 2554220882,
   2821834349, 2952996808, 3210313671, 3336571891, 3584528711,
   113926993, 338241895, 666307205, 773529912, 1294757372,
   1396182291, 1695183700, 1986661051, 2177026350, 2456956037,
   2730485921, 2820302411, 3259730800, 3345764771, 3516065817,
   3600352804, 4094571909, 275423344, 430227734, 506948616,
   659060556, 883997877, 958139571, 1322822218, 1537002063,
   1747873779, 1955562222, 2024104815, 2227730452, 2361852424,
   2428436474, 2756734187, 3204031479, 3329325298]

/-- Append one extended message-schedule word (32-bit). -/
def schedStep32 (ws : List Nat) : List Nat :=
  let l := ws.length
  ws ++ [(ssig1_32 (ws.getD (l - 2) 0) + ws.getD (l - 7) 0 +
          ssig0_32 (ws.getD (l - 15) 0) + ws.getD (l - 16) 0) % 4294967296]

/-- One SHA-256 compression round; `kw` pairs a round constant with a
schedule word. -/
def round32 (st : Hash8) (kw : Nat × Nat) : Hash8 :=
  let t1 := (st.h + bsig1_32 st.e + ch32 st.e st.f st.g + kw.1 + kw.2) % 4294967296
  let t2 := (bsig0_32 st.a + maj st.a st.b st.c) % 4294967296
  Hash8.mk ((t1 + t2) % 4294967296) st.a st.b st.c
    ((st.d + t1) % 4294967296) st.e st.f st.g

/-- Word-wise modular sum of two states (32-bit). -/
def addState32 (s t : Hash8) : Hash8 :=
  Hash8.mk ((s.a + t.a) % 4294967296) ((s.b + t.b) % 4294967296)
    ((s.c + t.c) % 4294967296) ((s.d + t.d) % 4294967296)
    ((s.e + t.e) % 4294967296) ((s.f + t.f) % 4294967296)
    ((s.g + t.g) % 4294967296) ((s.h + t.h) % 4294967296)

/-- Compress one 64-byte block into the running SHA-256 state. -/
def compress32 (st : Hash8) (block : List Nat) : Hash8 :=
  let ws := Nat.iterate schedStep32 48 ((chunks 4 block).map bytesToWord)
  addState32 st (List.foldl round32 st (List.zip K256 ws))

/-- SHA-256 initial hash value. -/
def initH256 : Hash8 :=
  Hash8.mk 1779033703 3144134277 1013904242 2773480762
    1359893119 2600822924 528734635 1541459225

/-- Merkle–Damgård padding for SHA-256: `0x80`, zeros, 8-byte bit length. -/
def sha256Pad (ms : List Nat) : List Nat :=
  ms ++ 128 :: List.replicate ((119 - ms.length % 64) % 64) 0 ++
    intBE 8 (8 * ms.length)

/-- Serialize the final state as the 32-byte big-endian digest. -/
def digestBytes32 (st : Hash8) : List Nat :=
  intBE 4 st.a ++ intBE 4 st.b ++ intBE 4 st.c ++ intBE 4 st.d ++
  intBE 4 st.e ++ intBE 4 st.f ++ intBE 4 st.g ++ intBE 4 st.h

/-- SHA-256 of a byte list. -/
def sha256 (ms : List Nat) : List Nat :=
  digestBytes32 (List.foldl compress32 initH256 (chunks 64 (sha256Pad ms)))

theorem sha256_length (ms : List Nat) : (sha256 ms).length = 32 := by
  simp [sha256, digestBytes32, intBE_length]

/-- FIPS 180-4 test vector: SHA-256 of `"abc"`. -/
example :
    hexEncode (sha256 [97, 98, 99]) =
      "ba7816bf8f01cfea414140de5dae2223b00361a396177a9cb410ff61f20015ad".data := by
  decide

/-! ## SHA-512 (used by `hashlib.sha512` in `enc_test.py`) -/

/-- Right rotation of a 64-bit word. -/
def rotr64 (x n : Nat) : Nat :=
  ((x >>> n) ||| (x <<< (64 - n))) % 18446744073709551616

/-- `Ch(x, y, z)` on 64-bit words. -/
def ch64 (x y z : Nat) : Nat :=
  (x &&& y) ^^^ ((x ^^^ 18446744073709551615) &&& z)

def bsig0_64 (x : Nat) : Nat := rotr64 x 28 ^^^ rotr64 x 34 ^^^ rotr64 x 39
def bsig1_64 (x : Nat) : Nat := rotr64 x 14 ^^^ rotr64 x 18 ^^^ rotr64 x 41
def ssig0_64 (x : Nat) : Nat := rotr64 x 1 ^^^ rotr64 x 8 ^^^ (x >>> 7)
def ssig1_64 (x : Nat) : Nat := rotr64 x 19 ^^^ rotr64 x 61 ^^^ (x >>> 6)

/-- SHA-512 round constants (FIPS 180-4 §4.2.3), written in decimal. -/
def K512 : List Nat :=
  [4794697086780616226, 8158064640168781261, 13096744586834688815,
   16840607885511220156, 4131703408338449720, 6480981068601479193,
   10538285296894168987, 12329834152419229976, 15566598209576043074,
   1334009975649890238, 2608012711638119052, 6128411473006802146,
   8268148722764581231, 9286055187155687089, 11230858885718282805,
   13951009754708518548, 16472876342353939154, 17275323862435702243,
   1135362057144423861, 2597628984639134821, 3308224258029322869,
   5365058923640841347, 6679025012923562964, 8573033837759648693,
   10970295158949994411, 12119686244451234320, 12683024718118986047,
   13788192230050041572, 14330467153632333762, 15395433587784984357,
   489312712824947311, 1452737877330783856, 2861767655752347644,
   3322285676063803686, 5560940570517711597, 5996557281743188959,
   7280758554555802590, 8532644243296465576, 9350256976987008742,
   10552545826968843579, 11727347734174303076, 12113106623233404929,
   14000437183269869457, 14369950271660146224, 15101387698204529176,
   15463397548674623760, 17586052441742319658, 1182934255886127544,
   1847814050463011016, 2177327727835720531, 2830643537854262169,
   3796741975233480872, 4115178125766777443, 5681478168544905931,
   6601373596472566643, 7507060721942968483, 8399075790359081724,
   8693463985226723168, 9568029438360202098, 10144078919501101548,
   10430055236837252648, 11840083180663258601, 13761210420658862357,
   14299343276471374635, 14566680578165727644, 15097957966210449927,
   16922976911328602910, 17689382322260857208, 500013540394364858,
   748580250866718886, 1242879168328830382, 1977374033974150939,
   2944078676154940804, 3659926193048069267, 4368137639120453308,
   4836135668995329356, 5532061633213252278, 6448918945643986474,
   6902733635092675308, 7801388544844847127]

/-- Append one extended message-schedule word (64-bit). -/
def schedStep64 (ws : List Nat) : List Nat :=
  let l := ws.length
  ws ++ [(ssig1_64 (ws.getD (l - 2) 0) + ws.getD (l - 7) 0 +
          ssig0_64 (ws.getD (l - 15) 0) + ws.getD (l - 16) 0) % 18446744073709551616]

/-- One SHA-512 compression round. -/
def round64 (st : Hash8) (kw : Nat × Nat) : Hash8 :=
  let t1 := (st.h + bsig1_64 st.e + ch64 st.e st.f st.g + kw.1 + kw.2) %
    18446744073709551616
  let t2 := (bsig0_64 st.a + maj st.a st.b st.c) % 18446744073709551616
  Hash8.mk ((t1 + t2) % 18446744073709551616) st.a st.b st.c
    ((st.d + t1) % 18446744073709551616) st.e st.f st.g

/-- Word-wise modular sum of two states (64-bit). -/
def addState64 (s t : Hash8) : Hash8 :=
  Hash8.mk ((s.a + t.a) % 18446744073709551616) ((s.b + t.b) % 18446744073709551616)
    ((s.c + t.c) % 18446744073709551616) ((s.d + t.d) % 18446744073709551616)
    ((s.e + t.e) % 18446744073709551616) ((s.f + t.f) % 18446744073709551616)
    ((s.g + t.g) % 18446744073709551616) ((s.h + t.h) % 18446744073709551616)

/-- Compress one 128-byte block into the running SHA-512 state. -/
def compress64 (st : Hash8) (block : List Nat) : Hash8 :=
  let ws := Nat.iterate schedStep64 64 ((chunks 8 block).map bytesToWord)
  addState64 st (List.foldl round64 st (List.zip K512 ws))

/-- SHA-512 initial hash value. -/
def initH512 : Hash8 :=
  Hash8.mk 7640891576956012808 13503953896175478587 4354685564936845355
    11912009170470909681 5840696475078001361 11170449401992604703
    2270897969802886507 6620516959819538809

/-- Merkle–Damgård padding for SHA-512: `0x80`, zeros, 16-byte bit length. -/
def sha512Pad (ms : List Nat) : List Nat :=
  ms ++ 128 :: List.replicate ((239 - ms.length % 128) % 128) 0 ++
    intBE 16 (8 * ms.length)

/-- Serialize the final state as the 64-byte big-endian digest. -/
def digestBytes64 (st : Hash8) : List Nat :=
  intBE 8 st.a ++ intBE 8 st.b ++ intBE 8 st.c ++ intBE 8 st.d ++
  intBE 8 st.e ++ intBE 8 st.f ++ intBE 8 st.g ++ intBE 8 st.h

/-- SHA-512 of a byte list. -/
def sha512 (ms : List Nat) : List Nat :=
  digestBytes64 (List.foldl compress64 initH512 (chunks 128 (sha512Pad ms)))

theorem sha512_length (ms : List Nat) : (sha512 ms).length = 64 := by
  simp [sha512, digestBytes64, intBE_length]

/-- Test vector: SHA-512 of the empty input. -/
example :
    hexEncode (sha512 []) =
      ("cf83e1357eefb8bdf1542850d66d8007d620e4050b5715dc83f4a921d36ce9ce" ++
       "47d0d13c5d85f2b0ff8318d2877eec2f63b931bd47417a81a538327af927da3e").data := by
  decide

/-! ## `hasher` from `test_folder/enc_test.py`

Python source:
```
def hasher(passw):
    hash_master_pass = hashlib.sha512(passw.encode()).hexdigest()
    return hash_master_pass
```
-/

/-- `hasher` of `enc_test.py`: the lowercase-hex SHA-512 digest of the
UTF-8 encoded passphrase, as a string. -/
def hasher (passw : String) : String :=
  String.mk (hexEncode (sha512 (utf8Encode passw)))

/-! ## Database rows from `test_folder/databases/models.py`

Python source:
```
class Master(Base):
    __tablename__ = "master"
    id: so.Mapped[int] = so.mapped_column(primary_key=True, autoincrement=True)
    username: so.Mapped[str] = so.mapped_column(unique=True)
    email: so.Mapped[str] = so.mapped_column(unique=True)
    hash_pass: so.Mapped[str]

class Password(Base):
    __tablename__ = "passwords"
    id: so.Mapped[int] = so.mapped_column(primary_key=True, autoincrement=True)
    app: so.Mapped[str]
    email: so.Mapped[str|None]
    phone_number: so.Mapped[str | None]
    username: so.Mapped[str]
    enc_pass: so.Mapped[str]
```
The integer `id` columns are filled in by the database on commit, so a row
as constructed by application code carries the remaining columns only; the
`id` assignment is modelled separately below (`nextRowid`).
-/

/-- A row of the `master` table as constructed by `write` (the
autoincrement `id` is assigned by the database on commit). -/
structure Master where
  username : String
  email : String
  hash_pass : String
deriving DecidableEq

/-- A row of the `passwords` table.  Every column other than the
autoincrement key is a plain (optional) string; `enc_pass` is the only
column whose content is an encrypted value. -/
structure Password where
  id : Nat
  app : String
  email : Option String
  phone_number : Option String
  username : String
  enc_pass : String
deriving DecidableEq

/-! ## `write` from `test_folder/databases/write_db.py`

Python source:
```
def write(db_engine):
    session = so.Session(db_engine)
    username_1 = str(input("Enter username: "))
    email_1 = str(input("Enter email: "))
    password_1 = str(input("Enter password: "))
    hashed_pass = hasher(password_1)
    user = Master(username=username_1, email=email_1, hash_pass=hashed_pass)
    session.add(user)
    session.commit()
```
The three `input()` prompts are the function's inputs; the committed
`Master` row is its effect, modelled as the returned record.
-/

/-- The `master` row persisted by `write` for the given console inputs. -/
def write (username_1 email_1 password_1 : String) : Master :=
  Master.mk username_1 email_1 (hasher password_1)

/-! ## HMAC-SHA256 and PBKDF2 (the `PBKDF2HMAC` call in `test_folder/gurt2.py`)

Python source:
```
salt = os.urandom(16)
kdf = PBKDF2HMAC(
    algorithm=hashes.SHA256(),
    length=32,
    salt=salt,
    iterations=1_200_000,
)
key = base64.urlsafe_b64encode(kdf.derive(password))
```
-/

/-- Byte-wise XOR of two equal-length byte lists. -/
def xorBytes (a b : List Nat) : List Nat :=
  List.zipWith (fun x y => x ^^^ y) a b

/-- HMAC-SHA256 (RFC 2104): keys longer than the 64-byte block are first
hashed, then zero-padded to the block size. -/
def hmacSha256 (key msg : List Nat) : List Nat :=
  let k0 := if 64 < key.length then sha256 key else key
  let kp := k0 ++ List.replicate (64 - k0.length) 0
  sha256 (kp.map (fun b => b ^^^ 92) ++ sha256 (kp.map (fun b => b ^^^ 54) ++ msg))

theorem hmacSha256_length (key msg : List Nat) :
    (hmacSha256 key msg).length = 32 := by
  simp [hmacSha256, sha256_length]

/-- The XOR-accumulation loop of one PBKDF2 block: `n` further HMAC
iterations starting from `u`, XORed into `acc`. -/
def pbkdf2Loop (password : List Nat) : Nat → List Nat → List Nat → List Nat
  | 0, _, acc => acc
  | n + 1, u, acc =>
    let u2 := hmacSha256 password u
    pbkdf2Loop password n u2 (xorBytes acc u2)

/-- Block `i` (1-based) of PBKDF2-HMAC-SHA256 with `c` iterations. -/
def pbkdf2Block (password salt : List Nat) (c i : Nat) : List Nat :=
  let u1 := hmacSha256 password (salt ++ intBE 4 i)
  pbkdf2Loop password (c - 1) u1 u1

/-- PBKDF2-HMAC-SHA256 (RFC 8018 §5.2) with `c` iterations and a `dkLen`
byte output. -/
def pbkdf2HmacSha256 (password salt : List Nat) (c dkLen : Nat) : List Nat :=
  (((List.range ((dkLen + 31) / 32)).map
      (fun i => pbkdf2Block password salt c (i + 1))).flatten).take dkLen

/-- The key derivation performed in `gurt2.py`: PBKDF2-HMAC-SHA256,
32-byte output, 1,200,000 iterations.  Its only inputs are the passphrase
bytes and the salt; there is no purpose or domain-separation argument. -/
def kdfDerive (password salt : List Nat) : List Nat :=
  pbkdf2HmacSha256 password salt 1200000 32

/-- RFC-style sanity vector (2 iterations so the kernel can evaluate it):
`pbkdf2_hmac("sha256", b"pw", b"salt", 2, 32)`. -/
example :
    hexEncode (pbkdf2HmacSha256 [112, 119] [115, 97, 108, 116] 2 32) =
      "061df616343cb988307172e2c3074be63e953b28237ea96184f6a48bec7a8a55".data := by
  decide

/-! ## Fernet (the `Fernet.encrypt` / `Fernet.decrypt` calls in `gurt2.py`)

A Fernet token is `0x80 ‖ timestamp(8) ‖ IV(16) ‖ AES-128-CBC ciphertext ‖
HMAC-SHA256 tag(32)`, the tag taken over everything before it, the
plaintext PKCS#7-padded to 16-byte blocks.  The AES-128 block permutation
is a parameter (`blockEnc` for the encryption direction, `blockDec` for
the inverse); padding, CBC chaining, framing and the HMAC tag are
computed concretely. -/

/-- PKCS#7 padding to 16-byte blocks: always appends `k ∈ [1,16]` bytes of
value `k`. -/
def pkcs7pad (bs : List Nat) : List Nat :=
  let k := 16 - bs.length % 16
  bs ++ List.replicate k k

/-- PKCS#7 unpadding; fails on any malformed padding (an empty input has
last byte `0`, which fails the `1 ≤ …` test). -/
def pkcs7unpad (bs : List Nat) : Option (List Nat) :=
  if 1 ≤ bs.getLastD 0 ∧ bs.getLastD 0 ≤ 16 ∧ bs.getLastD 0 ≤ bs.length ∧
      ∀ b ∈ bs.drop (bs.length - bs.getLastD 0), b = bs.getLastD 0
  then some (bs.take (bs.length - bs.getLastD 0)) else none

/-- CBC encryption of a block list, carrying the previous ciphertext block
(initially the IV). -/
def cbcEncBlocks (blockEnc : List Nat → List Nat) :
    List Nat → List (List Nat) → List (List Nat)
  | _, [] => []
  | prev, b :: rest =>
    let c := blockEnc (xorBytes b prev)
    c :: cbcEncBlocks blockEnc c rest

/-- CBC decryption of a block list. -/
def cbcDecBlocks (blockDec : List Nat → List Nat) :
    List Nat → List (List Nat) → List (List Nat)
  | _, [] => []
  | prev, c :: rest => xorBytes (blockDec c) prev :: cbcDecBlocks blockDec c rest

/-- `Fernet.encrypt`: seal `msg` under signing key `signKey`, with the
fresh random IV and the current timestamp passed explicitly. -/
def fernetEncrypt (blockEnc : List Nat → List Nat)
    (signKey iv ts msg : List Nat) : List Nat :=
  let ct := (cbcEncBlocks blockEnc iv (chunks 16 (pkcs7pad msg))).flatten
  let core := 128 :: (ts ++ (iv ++ ct))
  core ++ hmacSha256 signKey core

/-- `Fernet.decrypt`: check the HMAC tag over everything before it and the
version byte, CBC-decrypt, unpad; any failure yields `none`
(`InvalidToken`), never a partial plaintext. -/
def fernetDecrypt (blockDec : List Nat → List Nat)
    (signKey token : List Nat) : Option (List Nat) :=
  let data := token.take (token.length - 32)
  if token.drop (token.length - 32) = hmacSha256 signKey data ∧
      data.take 1 = [128] then
    let body := data.drop 9
    let iv := body.take 16
    let ct := body.drop 16
    if ct.length % 16 = 0 then
      pkcs7unpad ((cbcDecBlocks blockDec iv (chunks 16 ct)).flatten)
    else none
  else none

/-! ### Round-trip lemmas -/

theorem xorBytes_length (a b : List Nat) :
    (xorBytes a b).length = min a.length b.length := by
  simp [xorBytes]

theorem xorBytes_cancel : ∀ a b : List Nat, a.length = b.length →
    xorBytes (xorBytes a b) b = a
  | [], [], _ => rfl
  | x :: xs, y :: ys, h => by
    have ih := xorBytes_cancel xs ys
      (by simp only [List.length_cons] at h; omega)
    simp only [xorBytes, List.zipWith_cons_cons] at ih ⊢
    rw [Nat.xor_cancel_right, ih]

theorem chunksGo_flatten : ∀ (fuel : Nat) (bs : List Nat),
    bs.length ≤ fuel → (chunksGo 16 fuel bs).flatten = bs
  | _, [], _ => by cases ‹Nat› <;> rfl
  | 0, b :: bs, h => by simp at h
  | fuel + 1, b :: bs, h => by
    have ih := chunksGo_flatten fuel ((b :: bs).drop 16)
      (by
        simp only [List.length_drop, List.length_cons] at h ⊢
        omega)
    simp only [chunksGo, List.flatten_cons, ih, List.take_append_drop]

/-- Re-joining the 16-byte chunks of a byte list gives it back. -/
theorem flatten_chunks16 (bs : List Nat) : (chunks 16 bs).flatten = bs :=
  chunksGo_flatten bs.length bs le_rfl

theorem chunksGo_blocks_len : ∀ (fuel : Nat) (bs : List Nat),
    bs.length ≤ fuel → 16 ∣ bs.length →
    ∀ b ∈ chunksGo 16 fuel bs, b.length = 16
  | _, [], _, _ => by cases ‹Nat› <;> simp [chunksGo]
  | 0, b :: bs, h, _ => by simp at h
  | fuel + 1, x :: bs, h, hdvd => by
    have hlen : 16 ≤ (x :: bs).length := by
      rcases hdvd with ⟨c, hc⟩
      rcases c with _ | c
      · rw [List.length_cons] at hc; omega
      · omega
    intro b hb
    simp only [chunksGo, List.mem_cons] at hb
    rcases hb with hb | hb
    · subst hb
      simp only [List.length_take]
      omega
    · refine chunksGo_blocks_len fuel ((x :: bs).drop 16) ?_ ?_ b hb
      · simp only [List.length_drop, List.length_cons] at h ⊢
        omega
      · simp only [List.length_drop]
        exact (Nat.dvd_sub' hdvd (dvd_refl 16))

/-- Each 16-byte chunk of a list of length divisible by 16 has length 16. -/
theorem chunks16_blocks_len (bs : List Nat) (h : 16 ∣ bs.length) :
    ∀ b ∈ chunks 16 bs, b.length = 16 :=
  chunksGo_blocks_len bs.length bs le_rfl h

theorem chunksGo_of_flatten : ∀ (l : List (List Nat)) (fuel : Nat),
    (∀ b ∈ l, b.length = 16) → l.flatten.length ≤ fuel →
    chunksGo 16 fuel l.flatten = l
  | [], fuel, _, _ => by cases fuel <;> rfl
  | b :: rest, fuel, h, hf => by
    have hb : b.length = 16 := h b (List.mem_cons_self b rest)
    have hrest : ∀ x ∈ rest, x.length = 16 :=
      fun x hx => h x (List.mem_cons_of_mem b hx)
    simp only [List.flatten_cons] at hf ⊢
    have hlen : (b ++ rest.flatten).length = 16 + rest.flatten.length := by
      simp [hb]
    rcases fuel with _ | f
    · omega
    · rcases b with _ | ⟨x, xs⟩
      · simp at hb
      · have hcons : (x :: xs) ++ rest.flatten = x :: (xs ++ rest.flatten) := rfl
        rw [hcons]
        simp only [chunksGo]
        rw [← hcons, List.take_left' hb, List.drop_left' hb]
        rw [chunksGo_of_flatten rest f hrest (by omega)]

/-- Chunking a flattened list of 16-byte blocks gives back the blocks. -/
theorem chunks16_of_flatten (l : List (List Nat))
    (h : ∀ b ∈ l, b.length = 16) : chunks 16 l.flatten = l :=
  chunksGo_of_flatten l l.flatten.length h le_rfl

theorem flatten_blocks_len (l : List (List Nat))
    (h : ∀ b ∈ l, b.length = 16) : l.flatten.length = 16 * l.length := by
  induction l with
  | nil => rfl
  | cons b rest ih =>
    have hb : b.length = 16 := h b (List.mem_cons_self b rest)
    simp only [List.flatten_cons, List.length_append, List.length_cons, hb,
      ih (fun x hx => h x (List.mem_cons_of_mem b hx))]
    ring

theorem cbcEncBlocks_len (blockEnc : List Nat → List Nat)
    (hlen : ∀ b, b.length = 16 → (blockEnc b).length = 16) :
    ∀ (blocks : List (List Nat)) (prev : List Nat), prev.length = 16 →
    (∀ b ∈ blocks, b.length = 16) →
    ∀ c ∈ cbcEncBlocks blockEnc prev blocks, c.length = 16
  | [], _, _, _ => by simp [cbcEncBlocks]
  | b :: rest, prev, hprev, hblocks => by
    have hb : b.length = 16 := hblocks b (List.mem_cons_self b rest)
    have hx : (xorBytes b prev).length = 16 := by
      simp [xorBytes_length, hb, hprev]
    have hc : (blockEnc (xorBytes b prev)).length = 16 := hlen _ hx
    intro c hc2
    simp only [cbcEncBlocks, List.mem_cons] at hc2
    rcases hc2 with hc2 | hc2
    · subst hc2; exact hc
    · exact cbcEncBlocks_len blockEnc hlen rest _ hc
        (fun x hx2 => hblocks x (List.mem_cons_of_mem b hx2)) c hc2

theorem cbc_roundtrip (blockEnc blockDec : List Nat → List Nat)
    (hinv : ∀ b, b.length = 16 → blockDec (blockEnc b) = b)
    (hlen : ∀ b, b.length = 16 → (blockEnc b).length = 16) :
    ∀ (blocks : List (List Nat)) (prev : List Nat), prev.length = 16 →
    (∀ b ∈ blocks, b.length = 16) →
    cbcDecBlocks blockDec prev (cbcEncBlocks blockEnc prev blocks) = blocks
  | [], _, _, _ => rfl
  | b :: rest, prev, hprev, hblocks => by
    have hb : b.length = 16 := hblocks b (List.mem_cons_self b rest)
    have hx : (xorBytes b prev).length = 16 := by
      simp [xorBytes_length, hb, hprev]
    simp only [cbcEncBlocks, cbcDecBlocks]
    rw [hinv _ hx, xorBytes_cancel b prev (by omega)]
    rw [cbc_roundtrip blockEnc blockDec hinv hlen rest _ (hlen _ hx)
      (fun x hx2 => hblocks x (List.mem_cons_of_mem b hx2))]

theorem replicate_getLast? (n : Nat) (a : Nat) (h : 0 < n) :
    (List.replicate n a).getLast? = some a := by
  induction n with
  | zero => omega
  | succ n ih =>
    rcases n with _ | n
    · rfl
    · rw [List.replicate_succ, List.getLast?_cons]
      rw [ih (by omega)]
      simp [List.getLastD]

theorem pkcs7pad_length_dvd (msg : List Nat) : 16 ∣ (pkcs7pad msg).length := by
  simp only [pkcs7pad, List.length_append, List.length_replicate]
  omega

theorem pkcs7_roundtrip (msg : List Nat) :
    pkcs7unpad (pkcs7pad msg) = some msg := by
  have hk1 : msg.length % 16 < 16 := Nat.mod_lt _ (by decide)
  set k := 16 - msg.length % 16 with hk
  have hk2 : 1 ≤ k := by omega
  have hk3 : k ≤ 16 := by omega
  have hlast : (pkcs7pad msg).getLastD 0 = k := by
    rw [List.getLastD_eq_getLast?]
    simp only [pkcs7pad, ← hk, List.getLast?_append]
    rw [replicate_getLast? k k (by omega)]
    rfl
  have hlen : (pkcs7pad msg).length = msg.length + k := by
    simp [pkcs7pad, ← hk]
  have hsub : (pkcs7pad msg).length - k = msg.length := by omega
  have hdrop : (pkcs7pad msg).drop msg.length = List.replicate k k := by
    simp only [pkcs7pad, ← hk]
    exact List.drop_left msg (List.replicate k k)
  have htake : (pkcs7pad msg).take msg.length = msg := by
    simp only [pkcs7pad, ← hk]
    exact List.take_left msg (List.replicate k k)
  unfold pkcs7unpad
  rw [hlast, hsub, htake, hdrop]
  rw [if_pos ⟨hk2, hk3, by omega, fun b hb => List.eq_of_mem_replicate hb⟩]

/-- Round-trip of the modelled Fernet seal/open pair: whenever the block
cipher parameters form a 16-byte-block permutation pair, decrypting an
encrypted token under the same signing key recovers the plaintext. -/
theorem fernet_roundtrip (blockEnc blockDec : List Nat → List Nat)
    (hinv : ∀ b, b.length = 16 → blockDec (blockEnc b) = b)
    (hlen : ∀ b, b.length = 16 → (blockEnc b).length = 16)
    (signKey iv ts msg : List Nat)
    (hiv : iv.length = 16) (hts : ts.length = 8) :
    fernetDecrypt blockDec signKey (fernetEncrypt blockEnc signKey iv ts msg) =
      some msg := by
  have hdvd : 16 ∣ (pkcs7pad msg).length := pkcs7pad_length_dvd msg
  have hblocks16 : ∀ b ∈ chunks 16 (pkcs7pad msg), b.length = 16 :=
    chunks16_blocks_len (pkcs7pad msg) hdvd
  have henc16 : ∀ c ∈ cbcEncBlocks blockEnc iv (chunks 16 (pkcs7pad msg)),
      c.length = 16 :=
    cbcEncBlocks_len blockEnc hlen (chunks 16 (pkcs7pad msg)) iv hiv hblocks16
  simp only [fernetEncrypt, fernetDecrypt]
  set ctE := (cbcEncBlocks blockEnc iv (chunks 16 (pkcs7pad msg))).flatten
    with hctE
  set c := 128 :: (ts ++ (iv ++ ctE)) with hc
  have htag : (hmacSha256 signKey c).length = 32 := hmacSha256_length _ _
  have hlen32 : c.length = (c ++ hmacSha256 signKey c).length - 32 := by
    simp [htag]
  rw [List.drop_left' hlen32, List.take_left' hlen32]
  have hhead : c.take 1 = [128] := by rw [hc]; rfl
  rw [if_pos ⟨rfl, hhead⟩]
  have hc2 : c = (128 :: ts) ++ (iv ++ ctE) := by rw [hc]; rfl
  have h9 : (128 :: ts).length = 9 := by simp [hts]
  rw [hc2, List.drop_left' h9, List.take_left' hiv, List.drop_left' hiv]
  have hctlen : ctE.length = 16 *
      (cbcEncBlocks blockEnc iv (chunks 16 (pkcs7pad msg))).length :=
    flatten_blocks_len _ henc16
  rw [if_pos (by omega)]
  rw [hctE, chunks16_of_flatten _ henc16]
  rw [cbc_roundtrip blockEnc blockDec hinv hlen _ iv hiv hblocks16]
  rw [flatten_chunks16]
  exact pkcs7_roundtrip msg

theorem cbcEncBlocks_length (blockEnc : List Nat → List Nat) :
    ∀ (prev : List Nat) (l : List (List Nat)),
    (cbcEncBlocks blockEnc prev l).length = l.length
  | _, [] => rfl
  | prev, b :: rest => by
    simp only [cbcEncBlocks, List.length_cons]
    rw [cbcEncBlocks_length blockEnc _ rest]

/-- Recognizer for the byte form of an envelope produced by
`fernetEncrypt`: version byte `0x80` in front, and room for the
timestamp, the IV, at least one ciphertext block and the 32-byte tag. -/
def isEnvelopeBytes (bs : List Nat) : Bool :=
  decide (73 ≤ bs.length) && decide (bs.take 1 = [128])

/-- Every output of `fernetEncrypt` satisfies the envelope recognizer. -/
theorem fernetEncrypt_isEnvelope (blockEnc : List Nat → List Nat)
    (hlen : ∀ b, b.length = 16 → (blockEnc b).length = 16)
    (signKey iv ts msg : List Nat)
    (hiv : iv.length = 16) (hts : ts.length = 8) :
    isEnvelopeBytes (fernetEncrypt blockEnc signKey iv ts msg) = true := by
  have hmod : msg.length % 16 < 16 := Nat.mod_lt _ (by decide)
  have hpadlen : 1 ≤ (pkcs7pad msg).length := by
    simp only [pkcs7pad, List.length_append, List.length_replicate]
    omega
  have hflat : (chunks 16 (pkcs7pad msg)).flatten = pkcs7pad msg :=
    flatten_chunks16 _
  have hnb : 1 ≤ (chunks 16 (pkcs7pad msg)).length := by
    cases hcs : chunks 16 (pkcs7pad msg) with
    | nil =>
      rw [hcs] at hflat
      rw [← hflat] at hpadlen
      simp at hpadlen
    | cons b l => simp
  have henc16 : ∀ c ∈ cbcEncBlocks blockEnc iv (chunks 16 (pkcs7pad msg)),
      c.length = 16 :=
    cbcEncBlocks_len blockEnc hlen (chunks 16 (pkcs7pad msg)) iv hiv
      (chunks16_blocks_len _ (pkcs7pad_length_dvd msg))
  have hctlen :
      ((cbcEncBlocks blockEnc iv (chunks 16 (pkcs7pad msg))).flatten).length =
        16 * (cbcEncBlocks blockEnc iv (chunks 16 (pkcs7pad msg))).length :=
    flatten_blocks_len _ henc16
  rw [cbcEncBlocks_length] at hctlen
  simp only [isEnvelopeBytes, Bool.and_eq_true, decide_eq_true_eq]
  constructor
  · simp only [fernetEncrypt, List.length_append, List.length_cons,
      hmacSha256_length, hts, hiv]
    omega
  · rfl

/-! ## Autoincrement id assignment for the `passwords` table

`models.py` declares `id: Mapped[int] = mapped_column(primary_key=True,
autoincrement=True)` and `create_db.py` creates the table on SQLite
without requesting the `AUTOINCREMENT` table option, so the engine
assigns to a new row the successor of the largest id currently in the
table (`1` for an empty table); an id freed by deleting the largest row
is therefore assigned again to a later insert. -/

/-- The id the database assigns to the next inserted row. -/
def nextRowid (ids : List Nat) : Nat :=
  ids.foldr max 0 + 1

/-- Insert a row: the table's id column after commit, paired with the id
the new row received. -/
def insertRow (ids : List Nat) : List Nat × Nat :=
  (ids ++ [nextRowid ids], nextRowid ids)

/-- Delete the row with the given id. -/
def deleteRow (ids : List Nat) (i : Nat) : List Nat :=
  ids.filter (fun x => !(x == i))

theorem le_foldr_max : ∀ (ids : List Nat), ∀ x ∈ ids, x ≤ ids.foldr max 0
  | [], x, hx => by simp at hx
  | a :: t, x, hx => by
    rcases List.mem_cons.mp hx with h | h
    · subst h
      exact le_max_left _ _
    · exact le_trans (le_foldr_max t x h) (le_max_right _ _)

theorem nextRowid_not_mem (ids : List Nat) : nextRowid ids ∉ ids := by
  intro h
  have := le_foldr_max ids _ h
  unfold nextRowid at this
  omega

/-! ## Claims -/

theorem string_data_mk (l : List Char) : (String.mk l).data = l :=
  rfl

theorem hexDigit_mem (n : Nat) : hexDigit n ∈ hexChars :=
  List.get_mem hexChars (n % 16) (Nat.mod_lt n (by decide))

theorem hexEncode_length : ∀ bs : List Nat, (hexEncode bs).length = 2 * bs.length
  | [] => rfl
  | b :: t => by
    simp only [hexEncode, List.flatMap_cons, List.length_append, List.length_cons]
    have ih := hexEncode_length t
    simp only [hexEncode] at ih
    rw [ih]
    simp only [byteToHex, List.length_cons, List.length_nil]
    omega

theorem hexEncode_mem (bs : List Nat) : ∀ ch ∈ hexEncode bs, ch ∈ hexChars := by
  intro ch hch
  rcases List.mem_flatMap.mp hch with ⟨b, _, hc⟩
  simp only [byteToHex, List.mem_cons, List.not_mem_nil, or_false] at hc
  rcases hc with hc | hc <;> (subst hc; exact hexDigit_mem _)

/-- C1: the verification artifact persisted at registration is exactly a
single SHA-512 hex digest of the passphrase — a fast general-purpose
hash, not a slow key-stretching function.  Evaluated at the concrete
registration input password `Correct1!`: the stored `hash_pass` is the
plain SHA-512 digest of that passphrase. -/
theorem c1_stored_artifact_is_plain_sha512 :
    (write "alice" "a@x.com" "Correct1!").hash_pass = hasher "Correct1!" ∧
    hasher "Correct1!" =
      ("7adce50d2cf04af5f89d521b0a32be4732e6d79d2e3fd8429a40de133aae3dd4" ++
       "7cdbab362dc3834d4d5ec67ec29938b0579d44a55647bd1c0fda8490b0a23f93") :=
  ⟨rfl, by decide⟩

/-- C2: for all plaintexts M and session keys K, opening a sealed envelope
with the same key returns the original plaintext: decrypting the Fernet
token produced by encrypting `msg` yields `some msg`, for every signing
key, IV, timestamp and message, whenever the block cipher parameters form
an inverse pair of 16-byte-block permutations (as AES-128 is). -/
theorem c2_open_seal_roundtrip (blockEnc blockDec : List Nat → List Nat)
    (hinv : ∀ b, b.length = 16 → blockDec (blockEnc b) = b)
    (hlen : ∀ b, b.length = 16 → (blockEnc b).length = 16)
    (signKey iv ts msg : List Nat)
    (hiv : iv.length = 16) (hts : ts.length = 8) :
    fernetDecrypt blockDec signKey (fernetEncrypt blockEnc signKey iv ts msg) =
      some msg :=
  fernet_roundtrip blockEnc blockDec hinv hlen signKey iv ts msg hiv hts

/-- Witness for C2 at a concrete instantiation (identity block
permutation, zero IV and timestamp, plaintext `[1, 2, 3]`). -/
theorem c2_open_seal_roundtrip_witness :
    fernetDecrypt id [7] (fernetEncrypt id [7]
      (List.replicate 16 0) (List.replicate 8 0) [1, 2, 3]) = some [1, 2, 3] :=
  c2_open_seal_roundtrip id id (fun _ _ => rfl) (fun _ h => h) [7]
    (List.replicate 16 0) (List.replicate 8 0) [1, 2, 3] (by decide) (by decide)

/-- C5: key derivation is deterministic — any two calls of the `gurt2.py`
derivation (and of `hasher`) on identical inputs return bit-identical
outputs. -/
theorem c5_derive_deterministic (p1 s1 p2 s2 : List Nat) (q1 q2 : String)
    (hp : p1 = p2) (hs : s1 = s2) (hq : q1 = q2) :
    kdfDerive p1 s1 = kdfDerive p2 s2 ∧ hasher q1 = hasher q2 := by
  subst hp
  subst hs
  subst hq
  exact ⟨rfl, rfl⟩

/-- Witness for C5 at concrete inputs. -/
theorem c5_derive_deterministic_witness :
    kdfDerive [1] [2] = kdfDerive [1] [2] ∧ hasher "a" = hasher "a" :=
  c5_derive_deterministic [1] [2] [1] [2] "a" "a" rfl rfl rfl

/-- C6: the master record persisted by `write` at a concrete registration
consists of exactly the username, the email and the SHA-512 hex digest of
the password — there is no salt column, no KDF-parameter column, and no
salt is generated during registration. -/
theorem c6_master_row_eval :
    write "alice" "a@x.com" "pw" =
      Master.mk "alice" "a@x.com"
        ("be196838736ddfd0007dd8b2e8f46f22d440d4c5959925cb49135abc9cdb01e8" ++
         "4961aa43dd0ddb6ee59975eb649280d9f44088840af37451828a6412b9b574fc") := by
  decide

/-- C7 counterexample: the `passwords` schema stores a row whose
`username` column is the plaintext string itself, which is not a
nonce+ciphertext+tag envelope — refuting the claim that the username
field is persisted only in encrypted form. -/
theorem c7_plaintext_username_counterexample :
    (Password.mk 1 "github" none none "alice" "tok").username = "alice" ∧
    isEnvelopeBytes (utf8Encode "alice") = false :=
  ⟨rfl, by decide⟩

/-- C7 amended: the entry's `username` column is persisted verbatim as a
plaintext string; `enc_pass` is the only column designated for encrypted
content. -/
theorem c7_username_stored_verbatim (i : Nat) (a : String)
    (e ph : Option String) (u p : String) :
    (Password.mk i a e ph u p).username = u :=
  rfl

/-- C8 counterexample: with the schema's integer autoincrement primary
key, the second insert receives id 2; after deleting that row, the next
insert receives id 2 again — an id is reused after deletion, and ids are
the deterministic sequence 1, 2, … rather than random. -/
theorem c8_id_reuse_counterexample :
    (insertRow (insertRow []).1).2 = 2 ∧
    (insertRow (deleteRow (insertRow (insertRow []).1).1 2)).2 = 2 := by
  decide

/-- C8 amended: entry ids are assigned sequentially (successor of the
largest id in the table), so a fresh id is never equal to an id currently
present and distinctness of the stored ids is preserved — but ids are not
random, and deleting the largest row frees its id for reuse. -/
theorem c8_sequential_ids_unique (ids : List Nat) (hd : ids.Nodup) :
    (insertRow ids).2 = nextRowid ids ∧
    (insertRow ids).2 ∉ ids ∧
    ((insertRow ids).1).Nodup := by
  refine ⟨rfl, nextRowid_not_mem ids, ?_⟩
  refine List.Nodup.append hd (List.nodup_singleton _) ?_
  intro a ha hb
  simp only [List.mem_singleton] at hb
  subst hb
  exact nextRowid_not_mem ids ha

/-- Witness for C8's amended statement on the concrete table `[1, 2]`. -/
theorem c8_sequential_ids_unique_witness :
    (insertRow [1, 2]).2 = nextRowid [1, 2] ∧
    (insertRow [1, 2]).2 ∉ [1, 2] ∧
    ((insertRow [1, 2]).1).Nodup :=
  c8_sequential_ids_unique [1, 2] (by decide)

/-- C9: `hasher` is total, and for every string input it returns the
128-character lowercase-hex SHA-512 digest of the UTF-8 encoding of the
input: length is always 128, the value is the hex encoding of the
SHA-512 digest, and every output character is a lowercase hex digit. -/
theorem c9_hasher_shape (passw : String) :
    (hasher passw).length = 128 ∧
    hasher passw = String.mk (hexEncode (sha512 (utf8Encode passw))) ∧
    ∀ ch ∈ (hasher passw).data, ch ∈ hexChars := by
  unfold hasher
  refine ⟨?_, rfl, ?_⟩
  · rw [String.length_mk, hexEncode_length, sha512_length]
  · intro ch hch
    rw [string_data_mk] at hch
    exact hexEncode_mem (sha512 (utf8Encode passw)) ch hch

/-- C10: registrations that supply the same password persist identical
`hash_pass` values, whatever the username and email — the stored artifact
is derived from the password alone, with no salt mixed in. -/
theorem c10_same_password_same_artifact (u1 e1 u2 e2 p : String) :
    (write u1 e1 p).hash_pass = (write u2 e2 p).hash_pass :=
  rfl
